import Mathlib

/-!
# go-redis-migrate: command parser, classifier, worker, readiness gate, feed reader

A shallow embedding of `main.go`.  A Go `string` is modelled as the list of
its characters (`Str`); the only separators and cut sets the program uses are
ASCII (`"`, space, `\n`, `\r\n`, `role:`), so splitting and trimming act the
same on characters as on UTF-8 bytes.

Each goroutine is embedded as a step function on the part of the state it
can change, and a loop that folds the step over the inputs of its successive
rounds: the lines a worker receives, the results of the info call, the reads
of the feed together with the value of the flag that each round observes.
Logging has no effect on that state and is left out; `log.Fatal` is the
status `fatal`.
-/

namespace RedisMigrate

/-- A Go string, as the list of its characters. -/
abbrev Str := List Char

/-! ## Library functions of package `strings` used by `main.go` -/

/-- The Go call `strings.Split(s, sep)` for a one-character separator: the
fragments between consecutive occurrences of `sep`, so one more fragment than
there are separators (the empty string gives one empty fragment). -/
def split (sep : Char) : Str → List Str
  | [] => [[]]
  | c :: cs =>
    if c = sep then [] :: split sep cs
    else
      match split sep cs with
      | [] => [[c]]
      | f :: fs => (c :: f) :: fs

/-- The Go helper `trimLeftByte(s, c)`: drop leading `c`s. -/
def trimLeftByte (s : Str) (c : Char) : Str :=
  s.dropWhile (fun x => x == c)

/-- The Go helper `trimRightByte(s, c)`: drop trailing `c`s. -/
def trimRightByte (s : Str) (c : Char) : Str :=
  (s.reverse.dropWhile (fun x => x == c)).reverse

/-- The Go call `strings.Trim(s, cutset)` for a cut set of one ASCII
character: `trimLeftByte(trimRightByte(s, c), c)`. -/
def trim (s : Str) (c : Char) : Str :=
  trimLeftByte (trimRightByte s c) c

/-- The Go function `unicode.ToLower`: up to `unicode.MaxASCII` (U+007F) the
letters `A`..`Z` move to `a`..`z` and every other character stays as it is;
above, the answer is read from the table `unicode.CaseRanges`.  That table
belongs to the Go library, not to this repository: it is the parameter
`caseTable`, the lower-case mapping of the characters above U+007F, and every
statement below holds for every table. -/
def toLowerRune (caseTable : Char → Char) (c : Char) : Char :=
  if c.toNat ≤ 127 then
    if 65 ≤ c.toNat ∧ c.toNat ≤ 90 then Char.ofNat (c.toNat + 32) else c
  else caseTable c

/-- The Go call `strings.ToLower(s)`: `unicode.ToLower` on every character. -/
def toLower (caseTable : Char → Char) (s : Str) : Str :=
  s.map (toLowerRune caseTable)

/-- The Go call `strings.HasPrefix(s, p)`. -/
def hasPrefix (s p : Str) : Bool :=
  p.length ≤ s.length && s.take p.length == p

/-- The Go call `strings.TrimSuffix(s, suffix)`: `s` without the given
trailing `suffix`, or `s` itself when it does not end in `suffix`. -/
def trimSuffix (s suffix : Str) : Str :=
  if suffix.length ≤ s.length ∧ s.drop (s.length - suffix.length) = suffix then
    s.take (s.length - suffix.length)
  else s

/-- The Go function `unicode.IsSpace`: the Latin-1 spaces `\t \n \v \f \r`,
space, U+0085, U+00A0, and the other characters of Unicode category Z and
property Pattern_White_Space. -/
def isSpace (c : Char) : Bool :=
  let n := c.toNat
  (9 ≤ n && n ≤ 13) || n == 32 || n == 0x85 || n == 0xA0 || n == 0x1680 ||
  (0x2000 ≤ n && n ≤ 0x200A) || n == 0x2028 || n == 0x2029 || n == 0x202F ||
  n == 0x205F || n == 0x3000

/-- The Go call `strings.TrimSpace(s)`: drop leading and trailing white
space, as `unicode.IsSpace` defines it. -/
def trimSpace (s : Str) : Str :=
  ((s.dropWhile isSpace).reverse.dropWhile isSpace).reverse

/-! ## `isWriteCommand` and `parseCommand` -/

/-- The Go function `isWriteCommand`, with the global map `writeCommands` as
the list of its keys: look the lower-cased name up in the set. -/
def isWriteCommand (caseTable : Char → Char) (writeCommands : List Str) (cmd : Str) : Bool :=
  decide (toLower caseTable cmd ∈ writeCommands)

/-- The body of the `for _, part := range parts` loop of `parseCommand`: one
part is trimmed of spaces and appended to the result unless it is empty or a
single space. -/
def parseStep (parsedParts : List Str) (part : Str) : List Str :=
  let part := trim part ' '
  if part ≠ [] ∧ part ≠ [' '] then parsedParts ++ [part] else parsedParts

/-- The Go function `parseCommand`: split at the double quotes, then run the
loop over the parts from an empty result. -/
def parseCommand (cmd : Str) : List Str :=
  (split '"' cmd).foldl parseStep []

/-- The Go function `getWriteCommands` after a successful `COMMAND` call: the
catalog is a list of entries (name at index 0, flag list at index 2); a name
is collected once for each of its flags equal to `write`, as the catalog
spelled it, and every collected name becomes a key of `writeCommands`. -/
def getWriteCommands (cmds : List (Str × List Str)) : List Str :=
  cmds.foldl
    (fun writeCmds cmdDetail =>
      cmdDetail.2.foldl
        (fun writeCmds flag =>
          if flag = "write".toList then writeCmds ++ [cmdDetail.1] else writeCmds)
        writeCmds)
    []

/-! ## Counters and the worker -/

/-- Wrap an integer into the range of Go `int64`. -/
def wrapInt64 (x : Int) : Int :=
  (x + 2 ^ 63) % 2 ^ 64 - 2 ^ 63

/-- The Go call `atomic.AddInt64(counter, delta)`, on the stored value. -/
def addInt64 (counter delta : Int) : Int :=
  wrapInt64 (counter + delta)

/-- The global map `counters` (`map[string]*int64`), as an association list
from command name to the value its pointer holds. -/
abbrev Counters := List (Str × Int)

/-- The Go map read `counters[name]` with its `ok` flag. -/
def counterGet : Counters → Str → Option Int
  | [], _ => none
  | (k, v) :: rest, name => if k = name then some v else counterGet rest name

/-- The Go call `atomic.AddInt64(counter, 1)` on the counter that the map
holds for `name`: the value behind that pointer grows by one, nothing else
changes. -/
def counterAdd : Counters → Str → Counters
  | [], _ => []
  | (k, v) :: rest, name =>
    if k = name then (k, addInt64 v 1) :: rest else (k, v) :: counterAdd rest name

/-- Lines 65 to 72 of `worker`: fetch the counter of `commandName`, create it
at zero when the map has none, then add one to it atomically. -/
def counterIncr (counters : Counters) (commandName : Str) : Counters :=
  match counterGet counters commandName with
  | some _ => counterAdd counters commandName
  | none => counterAdd (counters ++ [(commandName, 0)]) commandName

/-- One call `dstRdb.Do(ctx, args...)`: the arguments passed, and whether the
destination answered without an error. -/
structure DestCall where
  args : List Str
  ok : Bool
  deriving DecidableEq, Repr

/-- What one worker can change: the calls issued to the destination so far
(oldest first) and the counter table. -/
structure WorkerState where
  calls : List DestCall
  counters : Counters
  deriving DecidableEq, Repr

/-- One iteration of the `for cmd := range ch` loop of `worker`.  `dstDo`
tells whether the destination call with given arguments succeeds; the code
drops that result.  `none` is a Go run-time panic (index out of range). -/
def workerStep (caseTable : Char → Char) (writeCommands : List Str)
    (dstDo : List Str → Bool) (st : WorkerState) (cmd : Str) : Option WorkerState :=
  let parsedCommand := parseCommand cmd
  if 1 < parsedCommand.length then
    match parsedCommand[1]? with
    | none => none
    | some commandName =>
      if isWriteCommand caseTable writeCommands commandName then
        let interfaceSlice := parsedCommand.drop 1
        let result := dstDo interfaceSlice
        some { calls := st.calls ++ [{ args := interfaceSlice, ok := result }],
               counters := counterIncr st.counters commandName }
      else some st
  else some st

/-- The worker loop over the lines it receives from the channel, in order. -/
def workerLoop (caseTable : Char → Char) (writeCommands : List Str)
    (dstDo : List Str → Bool) : WorkerState → List Str → Option WorkerState
  | st, [] => some st
  | st, cmd :: rest =>
    match workerStep caseTable writeCommands dstDo st cmd with
    | none => none
    | some st1 => workerLoop caseTable writeCommands dstDo st1 rest

/-! ## The stats goroutine -/

/-- The Go map write `fields[key] = value` on `log.Fields`. -/
def fieldsSet : List (Str × Int) → Str → Int → List (Str × Int)
  | [], key, value => [(key, value)]
  | (k, v) :: rest, key, value =>
    if k = key then (k, value) :: rest else (k, v) :: fieldsSet rest key value

/-- The result of one round of the stats goroutine: the fields of the log
record, the total of the round, the running `overall`, and the counters as
the round leaves them. -/
structure StatsRound where
  fields : List (Str × Int)
  total : Int
  overall : Int
  counters : Counters
  deriving DecidableEq, Repr

/-- One round of the stats goroutine: every counter is swapped with zero,
its old value becomes a field under the counter's name and is added to
`total`; then `overall` grows by `total` and is stored under `overall`. -/
def statsTick (overall : Int) (counters : Counters) : StatsRound :=
  let swept := counters.foldl
    (fun (acc : List (Str × Int) × Int) e =>
      (fieldsSet acc.1 e.1 e.2, addInt64 acc.2 e.2))
    ([], 0)
  let overall1 := addInt64 overall swept.2
  { fields := fieldsSet swept.1 "overall".toList overall1,
    total := swept.2,
    overall := overall1,
    counters := counters.map (fun e => (e.1, 0)) }

/-! ## The readiness goroutine -/

/-- How one round of a loop ends: the loop goes on, it has left through
`break`, or `log.Fatal` has ended the process. -/
inductive LoopStatus where
  | running
  | stopped
  | fatal
  deriving DecidableEq, Repr

/-- The flag `writeable` and the status of the polling loop. -/
structure PollState where
  writeable : Bool
  status : LoopStatus
  deriving DecidableEq, Repr

/-- The declaration `var writeable = false`, before the goroutine starts. -/
def pollInit : PollState :=
  { writeable := false, status := LoopStatus.running }

/-- The body of `for _, line := range lines` in the readiness goroutine. -/
def roleStep (writeable : Bool) (line : Str) : Bool :=
  if hasPrefix line "role:".toList then
    let role := trimSpace (line.drop 5)
    if role = "master".toList then true else writeable
  else writeable

/-- One round of the readiness goroutine; `info` is the result of
`dstRdb.Info(ctx, "replication")`, `none` when it returned an error. -/
def pollStep (writeable : Bool) (info : Option Str) : PollState :=
  match info with
  | none => { writeable := writeable, status := LoopStatus.fatal }
  | some info =>
    let lines := split '\n' info
    let writeable1 := lines.foldl roleStep writeable
    if writeable1 then { writeable := writeable1, status := LoopStatus.stopped }
    else { writeable := writeable1, status := LoopStatus.running }

/-- The readiness goroutine over the successive results of the info call: a
round runs only while the loop is still running. -/
def pollLoop : PollState → List (Option Str) → PollState
  | st, [] => st
  | st, info :: rest =>
    match st.status with
    | LoopStatus.running => pollLoop (pollStep st.writeable info) rest
    | _ => st

/-! ## The feed-reader loop -/

/-- The two results of `buf.ReadString`: the bytes read, and whether the
error is non-nil. -/
structure ReadResult where
  str : Str
  err : Bool
  deriving DecidableEq, Repr

/-- What the feed-reader loop can change: the lines handed to the channel so
far (oldest first), and whether `log.Fatal` has ended the process. -/
structure FeedState where
  sent : List Str
  fatal : Bool
  deriving DecidableEq, Repr

/-- One iteration of the `for` loop at the end of `main`; `writeable` is the
value of the flag that the iteration reads.  The test `str == "+OK\r\n"` only
writes a debug line and is left out. -/
def feedStep (writeable : Bool) (r : ReadResult) (st : FeedState) : FeedState :=
  if !writeable then st
  else if 0 < r.str.length then
    if r.err then { st with fatal := true }
    else { st with sent := st.sent ++ [trimSuffix r.str "\r\n".toList] }
  else st

/-- The feed-reader loop over successive iterations, each with the value of
the flag it reads and the result of its read; nothing runs after a fatal
exit. -/
def feedLoop : FeedState → List (Bool × ReadResult) → FeedState
  | st, [] => st
  | st, (writeable, r) :: rest =>
    if st.fatal then st else feedLoop (feedStep writeable r st) rest

/-- The state of the feed reader when its loop starts. -/
def feedInit : FeedState :=
  { sent := [], fatal := false }

/-- The state of the workers when they start: no call issued, no counter. -/
def workerInit : WorkerState :=
  { calls := [], counters := [] }

/-- Feed reader and worker together: the lines the feed reader hands to the
channel are processed by the worker loop in the order they were sent. -/
def pipeline (caseTable : Char → Char) (writeCommands : List Str)
    (dstDo : List Str → Bool) (events : List (Bool × ReadResult)) : Option WorkerState :=
  workerLoop caseTable writeCommands dstDo workerInit (feedLoop feedInit events).sent

/-! ## Specification-side definitions -/

/-- The lower-case mapping of the Latin-1 block, the part of the Unicode case
table between U+0080 and U+00FF: `À`..`Þ`, without the sign `×`, move 32 up.
It is the table of the closed examples. -/
def latin1Lower (c : Char) : Char :=
  if 0xC0 ≤ c.toNat ∧ c.toNat ≤ 0xDE ∧ c.toNat ≠ 0xD7 then Char.ofNat (c.toNat + 32) else c

/-- Two characters that are the same letter up to case: they are equal, or
one is a capital `A`..`Z` and the other the small letter 32 above it. -/
def sameLetter (c d : Char) : Bool :=
  c == d
    || (decide (65 ≤ c.toNat) && decide (c.toNat ≤ 90) && d.toNat == c.toNat + 32)
    || (decide (65 ≤ d.toNat) && decide (d.toNat ≤ 90) && c.toNat == d.toNat + 32)

/-- Case variants, in the words of the specification (`SET`, `set`, `Set`):
two names of the same length whose characters are, place by place, the same
letter up to case. -/
def caseVariant : Str → Str → Bool
  | [], [] => true
  | c :: cs, d :: ds => sameLetter c d && caseVariant cs ds
  | _, _ => false

/-- A name written in ASCII without capital letters, as the names of the
Redis command catalog are. -/
def lowerASCII (s : Str) : Bool :=
  s.all (fun c => decide (c.toNat ≤ 127) && !(decide (65 ≤ c.toNat) && decide (c.toNat ≤ 90)))

/-- A name written in ASCII. -/
def isASCII (s : Str) : Bool :=
  s.all (fun c => decide (c.toNat ≤ 127))

/-- The quoted arguments of a MONITOR line, as the feed writes them: each
argument preceded by a space and enclosed in double quotes. -/
def quoteArgs : List Str → Str
  | [] => []
  | a :: rest => ' ' :: '"' :: (a ++ '"' :: quoteArgs rest)

/-- A feed line `<metadata> "<arg0>" "<arg1>" ...`. -/
def monitorLine (m : Str) (args : List Str) : Str :=
  m ++ quoteArgs args

/-- Scanner for the quoted fragments of a line, in the words of the
specification: outside quotes text is skipped up to an opening quote; inside
quotes text is collected up to the closing quote, which ends the fragment.
An opening quote that is never closed starts no fragment. -/
def quotedScan : Bool → Str → Str → List Str
  | _, _, [] => []
  | false, _, c :: cs =>
    if c = '"' then quotedScan true [] cs else quotedScan false [] cs
  | true, acc, c :: cs =>
    if c = '"' then acc :: quotedScan false [] cs else quotedScan true (acc ++ [c]) cs

/-- The quoted fragments of a line: the text between an opening double quote
and its closing double quote, in order. -/
def quotedFragments (line : Str) : List Str :=
  quotedScan false [] line

/-- The parser as the specification words it: the quoted fragments, each
trimmed of spaces, the empty ones removed. -/
def parseQuotedOnly (line : Str) : List Str :=
  ((quotedFragments line).map (fun part => trim part ' ')).filter
    (fun part => decide (part ≠ []))

/-! ## Lemmas on splitting and trimming -/

theorem split_ne_nil (sep : Char) (s : Str) : split sep s ≠ [] := by
  cases s with
  | nil => simp [split]
  | cons c cs =>
    unfold split
    split_ifs
    · simp
    · cases split sep cs <;> simp

theorem split_of_not_mem (sep : Char) (p : Str) (h : sep ∉ p) : split sep p = [p] := by
  induction p with
  | nil => rfl
  | cons c cs ih =>
    have hc : c ≠ sep := fun e => h (by simp [e])
    have hcs : sep ∉ cs := fun e => h (by simp [e])
    simp [split, hc, ih hcs]

theorem split_append_sep (sep : Char) (p rest : Str) (h : sep ∉ p) :
    split sep (p ++ sep :: rest) = p :: split sep rest := by
  induction p with
  | nil => simp [split]
  | cons c cs ih =>
    have hc : c ≠ sep := fun e => h (by simp [e])
    have hcs : sep ∉ cs := fun e => h (by simp [e])
    simp [split, hc, ih hcs]

theorem split_no_sep (sep : Char) (s : Str) : ∀ f ∈ split sep s, sep ∉ f := by
  induction s with
  | nil => simp [split]
  | cons c cs ih =>
    unfold split
    split_ifs with hc
    · intro f hf
      rcases List.mem_cons.1 hf with rfl | hf
      · simp
      · exact ih f hf
    · cases hs : split sep cs with
      | nil => exact absurd hs (split_ne_nil sep cs)
      | cons g gs =>
        rw [hs] at ih
        intro f hf
        rcases List.mem_cons.1 hf with rfl | hf
        · have := ih g (by simp)
          simp only [List.mem_cons, not_or]
          exact ⟨fun e => hc e.symm, this⟩
        · exact ih f (by simp [hf])

theorem intercalate_split (sep : Char) (s : Str) :
    List.intercalate [sep] (split sep s) = s := by
  induction s with
  | nil => simp [split, List.intercalate]
  | cons c cs ih =>
    unfold split
    split_ifs with hc
    · cases hs : split sep cs with
      | nil => exact absurd hs (split_ne_nil sep cs)
      | cons g gs =>
        rw [hs] at ih
        simp [List.intercalate, List.intersperse] at ih ⊢
        simp [hc, ih]
    · cases hs : split sep cs with
      | nil => exact absurd hs (split_ne_nil sep cs)
      | cons g gs =>
        rw [hs] at ih
        cases gs with
        | nil => simp [List.intercalate, List.intersperse] at ih ⊢; exact ih
        | cons g2 gs2 =>
          simp [List.intercalate, List.intersperse] at ih ⊢
          exact ih

/-! ## Lemmas on trimming -/

theorem getLast?_dropWhile (p : Char → Bool) (l : Str) (a : Char)
    (h : (l.dropWhile p).getLast? = some a) : l.getLast? = some a := by
  induction l with
  | nil => simp at h
  | cons x xs ih =>
    rw [List.dropWhile_cons] at h
    split_ifs at h with hx
    · have h2 := ih h
      cases xs with
      | nil => simp at h2
      | cons y ys => simpa [List.getLast?_cons_cons] using h2
    · exact h

theorem head?_dropWhile_ne (c : Char) (l : Str) :
    (l.dropWhile (fun x => x == c)).head? ≠ some c := by
  intro h
  have := List.head?_dropWhile_not (fun x => x == c) l
  rw [h] at this
  simp at this

theorem getLast?_trimRightByte_ne (c : Char) (s : Str) :
    (trimRightByte s c).getLast? ≠ some c := by
  unfold trimRightByte
  rw [List.getLast?_reverse]
  exact head?_dropWhile_ne c s.reverse

theorem trim_head (s : Str) (c : Char) : (trim s c).head? ≠ some c :=
  head?_dropWhile_ne c _

theorem trim_last (s : Str) (c : Char) : (trim s c).getLast? ≠ some c := by
  intro h
  exact getLast?_trimRightByte_ne c s (getLast?_dropWhile _ _ _ h)

theorem trim_ne_single (s : Str) (c : Char) : trim s c ≠ [c] := by
  intro h
  have := trim_head s c
  rw [h] at this
  simp at this

theorem trimRightByte_eq_self (s : Str) (c : Char) (h : s.getLast? ≠ some c) :
    trimRightByte s c = s := by
  unfold trimRightByte
  rw [← List.head?_reverse] at h
  cases hr : s.reverse with
  | nil =>
    have : s = [] := by simpa using hr
    simp [this]
  | cons x xs =>
    rw [hr] at h
    have hx : x ≠ c := by simpa using h
    rw [List.dropWhile_cons_of_neg (by simpa using hx), ← hr, List.reverse_reverse]

theorem trimLeftByte_eq_self (s : Str) (c : Char) (h : s.head? ≠ some c) :
    trimLeftByte s c = s := by
  unfold trimLeftByte
  cases s with
  | nil => rfl
  | cons x xs =>
    have hx : x ≠ c := by simpa using h
    exact List.dropWhile_cons_of_neg (by simpa using hx)

theorem trim_eq_self (s : Str) (c : Char) (hh : s.head? ≠ some c)
    (hl : s.getLast? ≠ some c) : trim s c = s := by
  unfold trim
  rw [trimRightByte_eq_self s c hl, trimLeftByte_eq_self s c hh]

theorem trim_append_cut (s : Str) (c : Char) : trim (s ++ [c]) c = trim s c := by
  unfold trim trimRightByte
  simp

theorem trim_nil (c : Char) : trim [] c = [] := rfl

/-- The loop of `parseCommand` appends, in order, the non-empty trimmed parts
to what it started from. -/
theorem foldl_parseStep (parts : List Str) (acc : List Str) :
    parts.foldl parseStep acc
      = acc ++ (parts.map (fun part => trim part ' ')).filter (fun part => decide (part ≠ [])) := by
  induction parts generalizing acc with
  | nil => simp
  | cons x xs ih =>
    rw [List.foldl_cons, ih]
    unfold parseStep
    by_cases hx : trim x ' ' = []
    · simp [hx]
    · simp [hx, trim_ne_single]

theorem parseCommand_eq (cmd : Str) :
    parseCommand cmd
      = ((split '"' cmd).map (fun part => trim part ' ')).filter
          (fun part => decide (part ≠ [])) := by
  unfold parseCommand
  rw [foldl_parseStep]
  simp

/-! ## Lemmas on the counter table -/

theorem counterGet_append (cs : Counters) (k name : Str) (v : Int) :
    counterGet (cs ++ [(k, v)]) name
      = (counterGet cs name).orElse (fun _ => if k = name then some v else none) := by
  induction cs with
  | nil => simp [counterGet]
  | cons e rest ih =>
    obtain ⟨k1, v1⟩ := e
    by_cases h1 : k1 = name
    · simp [counterGet, h1]
    · simpa [counterGet, h1] using ih

theorem counterGet_counterAdd_same (cs : Counters) (name : Str) :
    counterGet (counterAdd cs name) name
      = (counterGet cs name).map (fun v => addInt64 v 1) := by
  induction cs with
  | nil => simp [counterGet, counterAdd]
  | cons e rest ih =>
    obtain ⟨k1, v1⟩ := e
    by_cases h1 : k1 = name
    · simp [counterGet, counterAdd, h1]
    · simp [counterGet, counterAdd, h1, ih]

theorem counterGet_counterAdd_other (cs : Counters) (name other : Str)
    (h : other ≠ name) :
    counterGet (counterAdd cs name) other = counterGet cs other := by
  induction cs with
  | nil => simp [counterGet, counterAdd]
  | cons e rest ih =>
    obtain ⟨k1, v1⟩ := e
    have h2 : ¬ name = other := fun e => h e.symm
    by_cases h1 : k1 = name
    · simp [counterGet, counterAdd, h1, h2]
    · by_cases h3 : k1 = other
      · subst h3
        simp [counterGet, counterAdd, h1]
      · simp [counterGet, counterAdd, h1, h3, ih]

/-- After `counterIncr`, the counter of the name holds its old value (zero
when it had none) plus one. -/
theorem counterGet_counterIncr_same (cs : Counters) (name : Str) :
    counterGet (counterIncr cs name) name
      = some (addInt64 ((counterGet cs name).getD 0) 1) := by
  unfold counterIncr
  cases h : counterGet cs name with
  | none => simp [counterGet_counterAdd_same, counterGet_append, h]
  | some v => simp [counterGet_counterAdd_same, h]

/-- The function `counterIncr` leaves the counter of every other name as it was. -/
theorem counterGet_counterIncr_other (cs : Counters) (name other : Str)
    (h : other ≠ name) :
    counterGet (counterIncr cs name) other = counterGet cs other := by
  unfold counterIncr
  have h2 : ¬ name = other := fun e => h e.symm
  cases h1 : counterGet cs name with
  | none =>
    simp only [counterGet_counterAdd_other _ _ _ h, counterGet_append, h2, if_false]
    cases counterGet cs other <;> rfl
  | some v => simp [counterGet_counterAdd_other _ _ _ h]

theorem addInt64_one_of_lt (v : Int) (h0 : -2 ^ 63 ≤ v) (h1 : v < 2 ^ 63 - 1) :
    addInt64 v 1 = v + 1 := by
  unfold addInt64 wrapInt64
  have h2 : (v + 1 + 2 ^ 63) % 2 ^ 64 = v + 1 + 2 ^ 63 :=
    Int.emod_eq_of_lt (by omega) (by omega)
  omega

/-! ## The parser on MONITOR lines -/

theorem parse_quoteArgs (p : Str) (args : List Str) (hp : '"' ∉ p)
    (hargs : ∀ a ∈ args, '"' ∉ a ∧ a ≠ [] ∧ a.head? ≠ some ' ' ∧ a.getLast? ≠ some ' ') :
    parseCommand (p ++ quoteArgs args)
      = (if trim p ' ' = [] then [] else [trim p ' ']) ++ args := by
  induction args generalizing p with
  | nil =>
    rw [parseCommand_eq]
    simp only [quoteArgs, List.append_nil]
    rw [split_of_not_mem _ _ hp]
    by_cases h : trim p ' ' = [] <;> simp [h]
  | cons a rest ih =>
    obtain ⟨ha1, ha2, ha3, ha4⟩ := hargs a (by simp)
    have hrest : ∀ b ∈ rest,
        '"' ∉ b ∧ b ≠ [] ∧ b.head? ≠ some ' ' ∧ b.getLast? ≠ some ' ' :=
      fun b hb => hargs b (by simp [hb])
    have hsp : '"' ∉ p ++ [' '] := by
      simp only [List.mem_append, List.mem_singleton, not_or]
      exact ⟨hp, by decide⟩
    have hline : p ++ quoteArgs (a :: rest)
        = (p ++ [' ']) ++ '"' :: (a ++ '"' :: ([] ++ quoteArgs rest)) := by
      simp [quoteArgs]
    have htail := ih [] (by simp) hrest
    rw [parseCommand_eq] at htail ⊢
    rw [hline, split_append_sep _ _ _ hsp, split_append_sep _ _ _ ha1]
    simp only [List.map_cons, trim_append_cut, trim_eq_self a ' ' ha3 ha4]
    rw [List.filter_cons, List.filter_cons, htail]
    by_cases h : trim p ' ' = [] <;> simp [h, ha2, trim_nil]

/-- C1: for a metadata prefix `m` without double quote and not empty once
trimmed of spaces, and arguments that have no double quote, are not empty and
neither start nor end with a space, `parseCommand` on the line
`m "a1" ... "an"` returns exactly `[m trimmed, a1, ..., an]`: token 0 is the
metadata, each argument is one token, in the original order. -/
theorem parseCommand_monitorLine (m : Str) (args : List Str)
    (hm : '"' ∉ m) (hne : trim m ' ' ≠ [])
    (hargs : ∀ a ∈ args, '"' ∉ a ∧ a ≠ [] ∧ a.head? ≠ some ' ' ∧ a.getLast? ≠ some ' ') :
    parseCommand (monitorLine m args) = trim m ' ' :: args
      ∧ (parseCommand (monitorLine m args))[0]? = some (trim m ' ')
      ∧ ∀ i, (parseCommand (monitorLine m args))[i + 1]? = args[i]? := by
  have h : parseCommand (monitorLine m args) = trim m ' ' :: args := by
    unfold monitorLine
    rw [parse_quoteArgs m args hm hargs]
    simp [hne]
  rw [h]
  simp

theorem parseCommand_monitorLine_witness :
    parseCommand (monitorLine "1700000000.000000 [0 127.0.0.1:1234]".toList
        ["get".toList, "key with spaces".toList])
      = ["1700000000.000000 [0 127.0.0.1:1234]".toList, "get".toList,
          "key with spaces".toList] :=
  (parseCommand_monitorLine "1700000000.000000 [0 127.0.0.1:1234]".toList
    ["get".toList, "key with spaces".toList] (by decide) (by decide) (by decide)).1

/-! ## The worker -/

/-- C2: when the parse of a line has at least 2 tokens and token 1 classifies
as a write command, one worker step issues exactly one destination call, with
tokens 1..n of the parse in order as its arguments (token 0 dropped), and then
adds one (in `int64` arithmetic, from zero when absent) to the counter of that
command name, whatever the destination answers; every other counter stays as
it was. -/
theorem workerStep_write (caseTable : Char → Char) (writeCommands : List Str)
    (dstDo : List Str → Bool) (st : WorkerState) (cmd name : Str)
    (hlen : 2 ≤ (parseCommand cmd).length)
    (hname : (parseCommand cmd)[1]? = some name)
    (hw : isWriteCommand caseTable writeCommands name = true) :
    ∃ st1, workerStep caseTable writeCommands dstDo st cmd = some st1
      ∧ st1.calls = st.calls ++
          [{ args := (parseCommand cmd).drop 1, ok := dstDo ((parseCommand cmd).drop 1) }]
      ∧ (parseCommand cmd).drop 1 = name :: (parseCommand cmd).drop 2
      ∧ counterGet st1.counters name
          = some (addInt64 ((counterGet st.counters name).getD 0) 1)
      ∧ (counterGet st.counters name = none → counterGet st1.counters name = some 1)
      ∧ (∀ v, counterGet st.counters name = some v → -2 ^ 63 ≤ v → v < 2 ^ 63 - 1 →
          counterGet st1.counters name = some (v + 1))
      ∧ ∀ other, other ≠ name →
          counterGet st1.counters other = counterGet st.counters other := by
  have h1 : 1 < (parseCommand cmd).length := hlen
  refine ⟨WorkerState.mk
      (st.calls ++ [DestCall.mk ((parseCommand cmd).drop 1) (dstDo ((parseCommand cmd).drop 1))])
      (counterIncr st.counters name), ?_, rfl, ?_, ?_, ?_, ?_, ?_⟩
  · simp only [workerStep, h1, if_true, hname, hw]
  · have h2 : (parseCommand cmd)[1] = name := by
      have := List.getElem?_eq_getElem h1
      rw [this] at hname
      exact Option.some.inj hname
    rw [← h2]
    exact List.drop_eq_getElem_cons h1
  · exact counterGet_counterIncr_same _ _
  · intro h
    simp only [counterGet_counterIncr_same, h]
    rfl
  · intro v hv h0 h2
    simp only [counterGet_counterIncr_same, hv, Option.getD_some]
    rw [addInt64_one_of_lt v h0 h2]
  · intro other ho
    exact counterGet_counterIncr_other _ _ _ ho

theorem workerStep_write_witness :
    ∃ st1, workerStep latin1Lower ["set".toList] (fun _ => false) workerInit
        "1700000000.000000 [0 127.0.0.1:1234] \"SET\" \"foo\" \"bar\"".toList = some st1
      ∧ st1.calls = [{ args := ["SET".toList, "foo".toList, "bar".toList], ok := false }]
      ∧ counterGet st1.counters "SET".toList = some 1 := by
  obtain ⟨st1, h1, h2, _, h4, _, _, _⟩ :=
    workerStep_write latin1Lower ["set".toList] (fun _ => false) workerInit
      "1700000000.000000 [0 127.0.0.1:1234] \"SET\" \"foo\" \"bar\"".toList "SET".toList
      (by decide) (by decide) (by decide)
  exact ⟨st1, h1, h2, h4⟩

/-- C3: when the parse of a line has fewer than 2 tokens, or token 1 is not
classified as a write command, one worker step issues no destination call
and leaves the counter table unchanged; the step never fails on an index out
of range, on any line, so token 1 is never read from a parse with fewer than
2 tokens. -/
theorem workerStep_ignore (caseTable : Char → Char) (writeCommands : List Str)
    (dstDo : List Str → Bool) (st : WorkerState) (cmd : Str)
    (h : (parseCommand cmd).length < 2 ∨
      ∃ name, (parseCommand cmd)[1]? = some name ∧
        isWriteCommand caseTable writeCommands name = false) :
    workerStep caseTable writeCommands dstDo st cmd = some st
      ∧ ∀ line, (workerStep caseTable writeCommands dstDo st line).isSome = true := by
  constructor
  · rcases h with h | ⟨name, hn, hw⟩
    · have h1 : ¬ 1 < (parseCommand cmd).length := by omega
      simp only [workerStep, h1, if_false]
    · by_cases h1 : 1 < (parseCommand cmd).length
      · simp [workerStep, h1, hn, hw]
      · simp only [workerStep, h1, if_false]
  · intro line
    by_cases h1 : 1 < (parseCommand line).length
    · have h2 := List.getElem?_eq_getElem h1
      by_cases hw : isWriteCommand caseTable writeCommands (parseCommand line)[1] = true
      · simp [workerStep, h1, hw]
      · simp [workerStep, h1, hw]
    · simp only [workerStep, h1, if_false, Option.isSome_some]

theorem workerStep_ignore_witness :
    workerStep latin1Lower ["set".toList] (fun _ => true) workerInit
        "1700000000.000000 [0 127.0.0.1:1234] \"GET\" \"foo\"".toList = some workerInit
      ∧ workerStep latin1Lower ["set".toList] (fun _ => true) workerInit "+OK".toList
        = some workerInit :=
  ⟨(workerStep_ignore latin1Lower ["set".toList] (fun _ => true) workerInit
      "1700000000.000000 [0 127.0.0.1:1234] \"GET\" \"foo\"".toList
      (Or.inr ⟨"GET".toList, by decide, by decide⟩)).1,
   (workerStep_ignore latin1Lower ["set".toList] (fun _ => true) workerInit "+OK".toList
      (Or.inl (by decide))).1⟩

/-! ## The classifier -/

theorem toNat_ofNat_add (c : Char) (h : c.toNat ≤ 90) :
    (Char.ofNat (c.toNat + 32)).toNat = c.toNat + 32 := by
  have hv : (c.toNat + 32).isValidChar := Or.inl (by omega)
  simp only [Char.ofNat, hv, dif_pos]
  rfl

theorem toLowerRune_sameLetter (caseTable : Char → Char) (c d : Char)
    (h : sameLetter c d = true) : toLowerRune caseTable c = toLowerRune caseTable d := by
  simp only [sameLetter, Bool.or_eq_true, Bool.and_eq_true, decide_eq_true_eq,
    beq_iff_eq] at h
  rcases h with (h | ⟨⟨h1, h2⟩, h3⟩) | ⟨⟨h1, h2⟩, h3⟩
  · rw [h]
  · have hd : Char.ofNat (c.toNat + 32) = d := by rw [← h3, Char.ofNat_toNat]
    have e1 : toLowerRune caseTable c = d := by
      simp only [toLowerRune]
      rw [if_pos (by omega), if_pos ⟨h1, h2⟩, hd]
    have e2 : toLowerRune caseTable d = d := by
      simp only [toLowerRune]
      rw [if_pos (by omega), if_neg (by omega)]
    rw [e1, e2]
  · have hc : Char.ofNat (d.toNat + 32) = c := by rw [← h3, Char.ofNat_toNat]
    have e1 : toLowerRune caseTable d = c := by
      simp only [toLowerRune]
      rw [if_pos (by omega), if_pos ⟨h1, h2⟩, hc]
    have e2 : toLowerRune caseTable c = c := by
      simp only [toLowerRune]
      rw [if_pos (by omega), if_neg (by omega)]
    rw [e1, e2]

theorem toLower_caseVariant (caseTable : Char → Char) (a b : Str)
    (h : caseVariant a b = true) : toLower caseTable a = toLower caseTable b := by
  induction a generalizing b with
  | nil =>
    cases b with
    | nil => rfl
    | cons d ds => simp [caseVariant] at h
  | cons c cs ih =>
    cases b with
    | nil => simp [caseVariant] at h
    | cons d ds =>
      simp only [caseVariant, Bool.and_eq_true] at h
      have h1 := toLowerRune_sameLetter caseTable c d h.1
      have h2 := ih ds h.2
      simp only [toLower, List.map_cons] at h2 ⊢
      rw [h1, h2]

theorem toLower_lowerASCII (caseTable : Char → Char) (s : Str)
    (h : lowerASCII s = true) : toLower caseTable s = s := by
  induction s with
  | nil => rfl
  | cons c cs ih =>
    simp only [lowerASCII, List.all_cons, Bool.and_eq_true, decide_eq_true_eq,
      Bool.not_eq_true'] at h
    obtain ⟨⟨h1, h2⟩, h3⟩ := h
    have hup : ¬ (65 ≤ c.toNat ∧ c.toNat ≤ 90) := by
      intro hh
      simp [hh.1, hh.2] at h2
    have e : toLowerRune caseTable c = c := by
      simp only [toLowerRune]
      rw [if_pos h1, if_neg hup]
    have ih1 := ih h3
    simp only [toLower, List.map_cons] at ih1 ⊢
    rw [e, ih1]

theorem caseVariant_toLower (caseTable : Char → Char) (s : Str)
    (h : isASCII s = true) : caseVariant (toLower caseTable s) s = true := by
  induction s with
  | nil => rfl
  | cons c cs ih =>
    simp only [isASCII, List.all_cons, Bool.and_eq_true, decide_eq_true_eq] at h
    obtain ⟨h1, h3⟩ := h
    have hs : sameLetter (toLowerRune caseTable c) c = true := by
      by_cases hup : 65 ≤ c.toNat ∧ c.toNat ≤ 90
      · have e : toLowerRune caseTable c = Char.ofNat (c.toNat + 32) := by
          simp only [toLowerRune]
          rw [if_pos h1, if_pos hup]
        rw [e]
        simp only [sameLetter, Bool.or_eq_true, Bool.and_eq_true, decide_eq_true_eq,
          beq_iff_eq]
        exact Or.inr ⟨⟨hup.1, hup.2⟩, toNat_ofNat_add c hup.2⟩
      · have e : toLowerRune caseTable c = c := by
          simp only [toLowerRune]
          rw [if_pos h1, if_neg hup]
        rw [e]
        simp [sameLetter]
    have ih1 := ih (by simpa [isASCII] using h3)
    simp only [toLower, List.map_cons] at ih1 ⊢
    simp only [caseVariant, hs, ih1, Bool.and_self]

/-- C5, as the code has it: `isWriteCommand` returns the same value on every
case variant of a name (`SET`, `set`, `Set`); that value is true exactly when
the lower-cased form of the name is in the set.  So it is true whenever the
name is present in the set and is written in lower case, as the names of the
command catalog are, and, for a name written in ASCII, false whenever no case
variant of the name was ever added to the set. -/
theorem isWriteCommand_case (caseTable : Char → Char) (writeCommands : List Str) (n : Str) :
    (∀ n1, caseVariant n1 n = true →
        isWriteCommand caseTable writeCommands n1 = isWriteCommand caseTable writeCommands n)
      ∧ (isWriteCommand caseTable writeCommands n = true ↔
          toLower caseTable n ∈ writeCommands)
      ∧ (n ∈ writeCommands → lowerASCII n = true →
          isWriteCommand caseTable writeCommands n = true)
      ∧ (n ∈ writeCommands → toLower caseTable n = n →
          isWriteCommand caseTable writeCommands n = true)
      ∧ (isASCII n = true → (∀ m, caseVariant m n = true → m ∉ writeCommands) →
          isWriteCommand caseTable writeCommands n = false) := by
  refine ⟨?_, ?_, ?_, ?_, ?_⟩
  · intro n1 h
    simp only [isWriteCommand, toLower_caseVariant caseTable n1 n h]
  · simp [isWriteCommand]
  · intro h1 h2
    simp only [isWriteCommand, toLower_lowerASCII caseTable n h2, h1, decide_True]
  · intro h1 h2
    simp only [isWriteCommand, h2, h1, decide_True]
  · intro h1 h2
    have := h2 (toLower caseTable n) (caseVariant_toLower caseTable n h1)
    simp [isWriteCommand, this]

theorem isWriteCommand_case_witness :
    isWriteCommand latin1Lower ["set".toList, "hset".toList] "Set".toList
        = isWriteCommand latin1Lower ["set".toList, "hset".toList] "SET".toList
      ∧ isWriteCommand latin1Lower ["set".toList, "hset".toList] "set".toList
        = isWriteCommand latin1Lower ["set".toList, "hset".toList] "SET".toList
      ∧ isWriteCommand latin1Lower ["set".toList, "hset".toList] "set".toList = true
      ∧ isWriteCommand latin1Lower ["écrire".toList] "ÉCRIRE".toList = true
      ∧ isWriteCommand latin1Lower ["set".toList, "hset".toList] "Get".toList = false :=
  ⟨(isWriteCommand_case latin1Lower ["set".toList, "hset".toList] "SET".toList).1
      "Set".toList (by decide),
   (isWriteCommand_case latin1Lower ["set".toList, "hset".toList] "SET".toList).1
      "set".toList (by decide),
   (isWriteCommand_case latin1Lower ["set".toList, "hset".toList] "set".toList).2.2.1
      (by decide) (by decide),
   (isWriteCommand_case latin1Lower ["écrire".toList] "ÉCRIRE".toList).2.1.2 (by decide),
   (isWriteCommand_case latin1Lower ["set".toList, "hset".toList] "Get".toList).2.2.2.2
      (by decide)
      (fun m hm hmem => by
        simp only [List.mem_cons, List.mem_singleton, List.not_mem_nil, or_false] at hmem
        rcases hmem with rfl | rfl
        · exact absurd hm (by decide)
        · exact absurd hm (by decide))⟩

/-- C5 fails as stated: the set that `getWriteCommands` builds from a catalog
entry spelled `SET` stores it as returned and so contains `SET`, yet
`isWriteCommand` answers false for `SET`, whatever the case table. -/
theorem isWriteCommand_counterexample :
    "SET".toList ∈ getWriteCommands [("SET".toList, ["write".toList])]
      ∧ (∀ caseTable, isWriteCommand caseTable
          (getWriteCommands [("SET".toList, ["write".toList])]) "SET".toList = false) :=
  ⟨by decide, fun _ => rfl⟩

/-! ## What the parser returns on every line -/

theorem split_intercalate (sep : Char) (fs : List Str) (hne : fs ≠ [])
    (h : ∀ f ∈ fs, sep ∉ f) : split sep (List.intercalate [sep] fs) = fs := by
  induction fs with
  | nil => exact absurd rfl hne
  | cons f rest ih =>
    cases rest with
    | nil =>
      have : List.intercalate [sep] [f] = f := by simp [List.intercalate]
      rw [this]
      exact split_of_not_mem sep f (h f (by simp))
    | cons g gs =>
      have : List.intercalate [sep] (f :: g :: gs)
          = f ++ sep :: List.intercalate [sep] (g :: gs) := by
        simp [List.intercalate]
      rw [this, split_append_sep sep f _ (h f (by simp)),
        ih (by simp) (fun x hx => h x (by simp [hx]))]

theorem split_mem (sep : Char) (s : Str) : ∀ f ∈ split sep s, ∀ c ∈ f, c ∈ s := by
  induction s with
  | nil => simp [split]
  | cons x xs ih =>
    unfold split
    split_ifs with hx
    · intro f hf c hc
      rcases List.mem_cons.1 hf with rfl | hf
      · simp at hc
      · exact List.mem_cons_of_mem _ (ih f hf c hc)
    · cases hs : split sep xs with
      | nil => exact absurd hs (split_ne_nil sep xs)
      | cons g gs =>
        rw [hs] at ih
        intro f hf c hc
        rcases List.mem_cons.1 hf with rfl | hf
        · rcases List.mem_cons.1 hc with rfl | hc
          · simp
          · exact List.mem_cons_of_mem _ (ih g (by simp) c hc)
        · exact List.mem_cons_of_mem _ (ih f (by simp [hf]) c hc)

theorem dropWhile_congr_mem (p q : Char → Bool) (l : Str) (h : ∀ c ∈ l, p c = q c) :
    l.dropWhile p = l.dropWhile q := by
  induction l with
  | nil => rfl
  | cons x xs ih =>
    have hx : p x = q x := h x (by simp)
    have hxs : ∀ c ∈ xs, p c = q c := fun c hc => h c (by simp [hc])
    simp only [List.dropWhile_cons, hx, ih hxs]

theorem dropWhile_mem (p : Char → Bool) (l : Str) : ∀ c ∈ l.dropWhile p, c ∈ l :=
  fun _ hc => (List.dropWhile_suffix p).subset hc

theorem rdropWhile_cons (p : Char → Bool) (x : Char) (xs : Str) :
    ((x :: xs).reverse.dropWhile p).reverse
      = if (xs.reverse.dropWhile p).reverse = [] then (if p x = true then [] else [x])
        else x :: (xs.reverse.dropWhile p).reverse := by
  rw [List.reverse_cons, List.dropWhile_append]
  by_cases h : xs.reverse.dropWhile p = []
  · by_cases hx : p x = true <;> simp [h, hx]
  · have h1 : (xs.reverse.dropWhile p).isEmpty = false := by
      cases hd : xs.reverse.dropWhile p with
      | nil => exact absurd hd h
      | cons a as => rfl
    simp [h, h1]

/-- Dropping at the left end and at the right end can be done in either order. -/
theorem dropWhile_both_comm (p : Char → Bool) (l : Str) :
    ((l.dropWhile p).reverse.dropWhile p).reverse
      = ((l.reverse.dropWhile p).reverse).dropWhile p := by
  induction l with
  | nil => rfl
  | cons x xs ih =>
    rw [rdropWhile_cons p x xs]
    by_cases hx : p x = true
    · rw [List.dropWhile_cons_of_pos hx, ih]
      by_cases h : (xs.reverse.dropWhile p).reverse = []
      · simp [h, hx]
      · simp [h, hx]
    · rw [List.dropWhile_cons_of_neg hx, rdropWhile_cons p x xs]
      by_cases h : (xs.reverse.dropWhile p).reverse = []
      · simp [h, hx]
      · simp [h, hx]

/-- On a string whose only white-space characters are spaces, trimming white
space and trimming spaces give the same result. -/
theorem trimSpace_eq_trim (f : Str) (h : ∀ c ∈ f, isSpace c = true → c = ' ') :
    trimSpace f = trim f ' ' := by
  have hpq : ∀ c ∈ f, isSpace c = (c == ' ') := by
    intro c hc
    by_cases hs : isSpace c = true
    · rw [hs, h c hc hs]
      rfl
    · have hne : c ≠ ' ' := by
        intro e
        rw [e] at hs
        exact hs (by decide)
      simp [hs, hne]
  have h1 : f.dropWhile isSpace = f.dropWhile (fun x => x == ' ') :=
    dropWhile_congr_mem _ _ f hpq
  have h2 : (f.dropWhile (fun x => x == ' ')).reverse.dropWhile isSpace
      = (f.dropWhile (fun x => x == ' ')).reverse.dropWhile (fun x => x == ' ') := by
    apply dropWhile_congr_mem
    intro c hc
    exact hpq c (dropWhile_mem _ f c (List.mem_reverse.1 hc))
  unfold trimSpace trim trimLeftByte trimRightByte
  rw [h1, h2]
  exact dropWhile_both_comm _ f

/-- On a line whose only white-space characters are spaces, every fragment is
trimmed alike by `strings.TrimSpace` and by `strings.Trim` with a space. -/
theorem plain_line_fragments (line : Str) (h : ∀ c ∈ line, isSpace c = true → c = ' ') :
    ∀ f ∈ split '"' line, trimSpace f = trim f ' ' :=
  fun f hf => trimSpace_eq_trim f (fun c hc => h c (split_mem _ line f hf c hc))

/-- C6, as the code has it: on a line none of whose fragments keeps, once its
spaces are removed, another white-space character at either end,
`parseCommand` returns, in order, all the fragments that the double quotes
cut the line into (the text outside the quotes as well as the text between
them), each trimmed, the empty ones removed.  The fragments are the one list
of quote-free strings that, joined by double quotes, give the line back.  A
line without a double quote yields its own trimmed text as one token (none
when that is empty), and the empty input yields the empty sequence.  Lines
with a tab or another white-space character at the end of a fragment are left
out: the statement says nothing of them. -/
theorem parseCommand_fragments (line : Str)
    (hws : ∀ f ∈ split '"' line, trimSpace f = trim f ' ') :
    parseCommand line
        = ((split '"' line).map trimSpace).filter (fun part => decide (part ≠ []))
      ∧ List.intercalate ['"'] (split '"' line) = line
      ∧ (∀ f ∈ split '"' line, '"' ∉ f)
      ∧ (∀ fs : List Str, fs ≠ [] → (∀ f ∈ fs, '"' ∉ f) →
          List.intercalate ['"'] fs = line → split '"' line = fs)
      ∧ ('"' ∉ line →
          parseCommand line = if trimSpace line = [] then [] else [trimSpace line])
      ∧ parseCommand [] = [] := by
  have hmap : (split '"' line).map trimSpace
      = (split '"' line).map (fun part => trim part ' ') :=
    List.map_congr_left hws
  refine ⟨?_, intercalate_split _ line, split_no_sep _ line, ?_, ?_, rfl⟩
  · rw [hmap]
    exact parseCommand_eq line
  · intro fs hne hfs hl
    rw [← hl]
    exact split_intercalate _ fs hne hfs
  · intro h
    have hl : trimSpace line = trim line ' ' := by
      apply hws
      rw [split_of_not_mem _ _ h]
      simp
    rw [parseCommand_eq, split_of_not_mem _ _ h, hl]
    by_cases ht : trim line ' ' = [] <;> simp [ht]

theorem parseCommand_fragments_witness :
    parseCommand "  mget   \"key1\"  \"key with spaces\"  ".toList
      = ["mget".toList, "key1".toList, "key with spaces".toList] := by
  have h := (parseCommand_fragments "  mget   \"key1\"  \"key with spaces\"  ".toList
    (by decide)).1
  rw [h]
  decide

/-- C6 fails as stated: the text outside the quotes is kept, so the line
`set "key" "value"` of the test yields three tokens where its quoted fragments
are two, and the line `+OK`, which has no quoted content, yields one token. -/
theorem parseCommand_keeps_unquoted :
    parseCommand "set \"key\" \"value\"".toList
        = ["set".toList, "key".toList, "value".toList]
      ∧ parseQuotedOnly "set \"key\" \"value\"".toList = ["key".toList, "value".toList]
      ∧ quotedFragments "+OK".toList = []
      ∧ parseCommand "+OK".toList = ["+OK".toList] := by
  decide

/-- C10, the code at the failing inputs: a tab is not trimmed, so a returned
token can start with a tab or consist of white space only; and a line ended
by a bare newline yields the newline as a last token. -/
theorem parseCommand_keeps_tab :
    parseCommand "\"\tkey\"".toList = ["\tkey".toList]
      ∧ parseCommand "\"\t\"".toList = ["\t".toList]
      ∧ parseCommand "get \"key\"\n".toList = ["get".toList, "key".toList, "\n".toList] := by
  decide

/-- Every token that `parseCommand` returns is non-empty and neither starts
nor ends with a space character. -/
theorem parseCommand_tokens (line : Str) :
    ∀ t ∈ parseCommand line, t ≠ [] ∧ t.head? ≠ some ' ' ∧ t.getLast? ≠ some ' ' := by
  intro t ht
  rw [parseCommand_eq] at ht
  simp only [List.mem_filter, List.mem_map, decide_eq_true_eq] at ht
  obtain ⟨⟨part, _, rfl⟩, hne⟩ := ht
  exact ⟨hne, trim_head part ' ', trim_last part ' '⟩

/-! ## The feed-reader loop -/

theorem feedLoop_fatal (st : FeedState) (events : List (Bool × ReadResult))
    (h : st.fatal = true) : feedLoop st events = st := by
  cases events with
  | nil => rfl
  | cons e rest =>
    obtain ⟨w, r⟩ := e
    simp [feedLoop, h]

theorem feedStep_closed (r : ReadResult) (st : FeedState) : feedStep false r st = st := by
  simp [feedStep]

theorem feedLoop_closed_append (st : FeedState) (closed later : List (Bool × ReadResult))
    (h : ∀ e ∈ closed, e.1 = false) : feedLoop st (closed ++ later) = feedLoop st later := by
  induction closed with
  | nil => rfl
  | cons e rest ih =>
    obtain ⟨w, r⟩ := e
    have hw : w = false := h (w, r) (by simp)
    subst hw
    have hrest : ∀ e ∈ rest, e.1 = false := fun e he => h e (by simp [he])
    by_cases hf : st.fatal = true
    · rw [feedLoop_fatal st _ hf, feedLoop_fatal st _ hf]
    · simp only [List.cons_append, feedLoop, hf, feedStep_closed]
      exact ih hrest

theorem feedLoop_closed (st : FeedState) (closed : List (Bool × ReadResult))
    (h : ∀ e ∈ closed, e.1 = false) : feedLoop st closed = st := by
  have := feedLoop_closed_append st closed [] h
  simpa [feedLoop] using this

theorem feedStep_open (r : ReadResult) (st : FeedState) (he : r.err = false)
    (hs : r.str ≠ []) :
    feedStep true r st
      = { sent := st.sent ++ [trimSuffix r.str "\r\n".toList], fatal := st.fatal } := by
  have hl : 0 < r.str.length := List.length_pos.2 hs
  simp [feedStep, hl, he]

theorem feedLoop_sent (st : FeedState) (events : List (Bool × ReadResult))
    (hf : st.fatal = false) (hok : ∀ e ∈ events, e.2.err = false) :
    feedLoop st events
      = { sent := st.sent ++
            (events.filter (fun e => e.1 && decide (e.2.str ≠ []))).map
              (fun e => trimSuffix e.2.str "\r\n".toList),
          fatal := false } := by
  induction events generalizing st with
  | nil =>
    cases st
    simp_all [feedLoop]
  | cons e rest ih =>
    obtain ⟨w, r⟩ := e
    have he : r.err = false := hok (w, r) (by simp)
    have hrest : ∀ e ∈ rest, e.2.err = false := fun e h => hok e (by simp [h])
    simp only [feedLoop, hf, Bool.false_eq_true, if_false]
    cases w with
    | false =>
      rw [feedStep_closed, ih st hf hrest]
      simp
    | true =>
      by_cases hs : r.str = []
      · have : feedStep true r st = st := by simp [feedStep, hs]
        rw [this, ih st hf hrest]
        simp [hs]
      · rw [feedStep_open r st he hs,
          ih (FeedState.mk (st.sent ++ [trimSuffix r.str "\r\n".toList]) st.fatal) hf hrest]
        simp [hs]

theorem trimSuffix_append (body suffix : Str) : trimSuffix (body ++ suffix) suffix = body := by
  simp [trimSuffix]

/-- C4: lines read while the readiness flag is false are not handed to the
channel, whatever they are, so no destination call results; they are not kept
for later either, the loop goes on exactly as if they had never been read.
Without a read error, the channel receives exactly the non-empty lines read
while the flag is true, each once, in order, with a trailing `\r\n` removed. -/
theorem feed_gate (closed events : List (Bool × ReadResult))
    (hclosed : ∀ e ∈ closed, e.1 = false) (hok : ∀ e ∈ events, e.2.err = false) :
    feedLoop feedInit closed = feedInit
      ∧ (∀ caseTable writeCommands dstDo,
          pipeline caseTable writeCommands dstDo closed = some workerInit)
      ∧ (∀ st later, feedLoop st (closed ++ later) = feedLoop st later)
      ∧ (feedLoop feedInit (closed ++ events)).sent
          = (events.filter (fun e => e.1 && decide (e.2.str ≠ []))).map
              (fun e => trimSuffix e.2.str "\r\n".toList)
      ∧ (∀ st r, r.err = false → r.str ≠ [] →
          feedStep true r st
            = { sent := st.sent ++ [trimSuffix r.str "\r\n".toList], fatal := st.fatal })
      ∧ ∀ body : Str, trimSuffix (body ++ "\r\n".toList) "\r\n".toList = body := by
  refine ⟨feedLoop_closed _ _ hclosed, ?_, ?_, ?_, ?_, ?_⟩
  · intro caseTable writeCommands dstDo
    simp only [pipeline, feedLoop_closed _ _ hclosed]
    rfl
  · intro st later
    exact feedLoop_closed_append st closed later hclosed
  · rw [feedLoop_closed_append _ _ _ hclosed, feedLoop_sent feedInit events rfl hok]
    simp [feedInit]
  · intro st r he hs
    exact feedStep_open r st he hs
  · intro body
    exact trimSuffix_append body _

theorem feed_gate_witness :
    (feedLoop feedInit
        ([(false, ReadResult.mk "m \"SET\" \"a\" \"1\"\r\n".toList false),
          (false, ReadResult.mk "m \"DEL\" \"a\"\r\n".toList false)] ++
         [(true, ReadResult.mk "m \"SET\" \"b\" \"2\"\r\n".toList false)])).sent
      = ["m \"SET\" \"b\" \"2\"".toList] := by
  have h := (feed_gate
    [(false, ReadResult.mk "m \"SET\" \"a\" \"1\"\r\n".toList false),
     (false, ReadResult.mk "m \"DEL\" \"a\"\r\n".toList false)]
    [(true, ReadResult.mk "m \"SET\" \"b\" \"2\"\r\n".toList false)]
    (by decide) (by decide)).2.2.2.1
  rw [h]
  decide

/-- C9, the code at the failing inputs: a read that returns an error and no
bytes while the flag is set does not end the process, and the loop can go
round on such reads for ever; a read that returns an error while the flag is
not set does not end it either.  Only an error that comes with bytes, read
while the flag is set, is fatal. -/
theorem feedStep_error_ignored :
    feedStep true (ReadResult.mk [] true) feedInit = feedInit
      ∧ (∀ n, feedLoop feedInit (List.replicate n (true, ReadResult.mk [] true)) = feedInit)
      ∧ feedStep false (ReadResult.mk "+OK".toList true) feedInit = feedInit
      ∧ (∀ r st, r.err = true →
          ((feedStep true r st).fatal = true ↔ (r.str ≠ [] ∨ st.fatal = true))) := by
  refine ⟨by decide, ?_, by decide, ?_⟩
  · intro n
    induction n with
    | zero => rfl
    | succ k ih =>
      simp only [List.replicate_succ, feedLoop, feedInit, Bool.false_eq_true, if_false]
      have : feedStep true (ReadResult.mk [] true) (FeedState.mk [] false)
          = FeedState.mk [] false := by decide
      rw [this]
      exact ih
  · intro r st he
    by_cases hs : r.str = []
    · simp [feedStep, hs]
    · have hl : 0 < r.str.length := List.length_pos.2 hs
      simp [feedStep, hl, he, hs]

/-! ## The readiness goroutine -/

theorem hasPrefix_iff (s p : Str) : hasPrefix s p = true ↔ ∃ rest, s = p ++ rest := by
  constructor
  · intro h
    simp only [hasPrefix, Bool.and_eq_true, decide_eq_true_eq, beq_iff_eq] at h
    refine ⟨s.drop p.length, ?_⟩
    conv_lhs => rw [← List.take_append_drop p.length s]
    rw [h.2]
  · rintro ⟨rest, rfl⟩
    simp [hasPrefix]

theorem roleStep_true_iff (w : Bool) (line : Str) :
    roleStep w line = true ↔
      w = true ∨ ∃ rest, line = "role:".toList ++ rest ∧ trimSpace rest = "master".toList := by
  unfold roleStep
  by_cases hp : hasPrefix line "role:".toList = true
  · obtain ⟨rest, rfl⟩ := (hasPrefix_iff _ _).1 hp
    have hd : ("role:".toList ++ rest).drop 5 = rest := by simp
    simp only [hp, if_true, hd]
    by_cases hm : trimSpace rest = "master".toList
    · simp only [hm, if_true, true_iff]
      exact Or.inr ⟨rest, rfl, hm⟩
    · simp only [hm, if_false]
      constructor
      · exact Or.inl
      · rintro (h | ⟨rest1, h1, h2⟩)
        · exact h
        · have : rest = rest1 := List.append_cancel_left h1
          exact absurd (this ▸ h2) hm
  · simp only [hp, Bool.false_eq_true, if_false]
    constructor
    · exact Or.inl
    · rintro (h | ⟨rest1, h1, _⟩)
      · exact h
      · exact absurd ((hasPrefix_iff _ _).2 ⟨rest1, h1⟩) hp

theorem foldl_roleStep_true_iff (lines : List Str) (w : Bool) :
    lines.foldl roleStep w = true ↔
      w = true ∨ ∃ line ∈ lines, ∃ rest,
        line = "role:".toList ++ rest ∧ trimSpace rest = "master".toList := by
  induction lines generalizing w with
  | nil => simp
  | cons l rest ih =>
    rw [List.foldl_cons, ih, roleStep_true_iff]
    constructor
    · rintro ((h | h) | ⟨line, hl, h⟩)
      · exact Or.inl h
      · exact Or.inr ⟨l, by simp, h⟩
      · exact Or.inr ⟨line, by simp [hl], h⟩
    · rintro (h | ⟨line, hl, h⟩)
      · exact Or.inl (Or.inl h)
      · rcases List.mem_cons.1 hl with rfl | hl
        · exact Or.inl (Or.inr h)
        · exact Or.inr ⟨line, hl, h⟩

theorem pollStep_writeable_iff (w : Bool) (info : Str) :
    (pollStep w (some info)).writeable = true ↔
      w = true ∨ ∃ line ∈ split '\n' info, ∃ rest,
        line = "role:".toList ++ rest ∧ trimSpace rest = "master".toList := by
  rw [← foldl_roleStep_true_iff]
  simp only [pollStep]
  split_ifs with h
  · simp [h]
  · simp [h]

theorem pollStep_status (w : Bool) (info : Str) :
    (pollStep w (some info)).status
      = if (pollStep w (some info)).writeable = true then LoopStatus.stopped
        else LoopStatus.running := by
  simp only [pollStep]
  split_ifs <;> simp_all

theorem pollStep_keeps_true (info : Option Str) : (pollStep true info).writeable = true := by
  cases info with
  | none => rfl
  | some i => exact (pollStep_writeable_iff true i).2 (Or.inl rfl)

theorem pollLoop_keeps_true (st : PollState) (results : List (Option Str))
    (h : st.writeable = true) : (pollLoop st results).writeable = true := by
  induction results generalizing st with
  | nil => exact h
  | cons info rest ih =>
    unfold pollLoop
    split
    · rw [h]
      exact ih _ (pollStep_keeps_true info)
    · exact h

theorem pollLoop_stopped (st : PollState) (results : List (Option Str))
    (h : st.status = LoopStatus.stopped) : pollLoop st results = st := by
  cases results with
  | nil => rfl
  | cons info rest => simp [pollLoop, h]

/-- C8: the readiness flag starts false; one poll step that gets the
replication info sets it to true exactly when the info has a line beginning
with `role:` whose remainder, trimmed of white space, is `master`; no step
and no run of the polling loop changes the flag from true to false; the loop
stops with the step that leaves the flag true, goes on otherwise, and does
nothing once stopped. -/
theorem readiness_flag :
    pollInit.writeable = false
      ∧ (∀ info : Str, (pollStep false (some info)).writeable = true ↔
          ∃ line ∈ split '\n' info, ∃ rest,
            line = "role:".toList ++ rest ∧ trimSpace rest = "master".toList)
      ∧ (∀ info, (pollStep true info).writeable = true)
      ∧ (∀ st results, st.writeable = true → (pollLoop st results).writeable = true)
      ∧ (∀ w (info : Str), (pollStep w (some info)).status
          = if (pollStep w (some info)).writeable = true then LoopStatus.stopped
            else LoopStatus.running)
      ∧ (∀ st results, st.status = LoopStatus.stopped → pollLoop st results = st) := by
  refine ⟨rfl, ?_, pollStep_keeps_true, pollLoop_keeps_true, pollStep_status,
    pollLoop_stopped⟩
  intro info
  rw [pollStep_writeable_iff]
  simp

theorem readiness_flag_witness :
    (pollStep false (some "# Replication\r\nrole:master\r\nconnected_slaves:0\r\n".toList)).writeable
        = true
      ∧ (pollLoop pollInit
          [some "role:slave\r\n".toList, some "role:master\r\n".toList,
           some "role:slave\r\n".toList]).writeable = true :=
  ⟨(readiness_flag.2.1 "# Replication\r\nrole:master\r\nconnected_slaves:0\r\n".toList).2
      ⟨"role:master\r".toList, by decide, "master\r".toList, by decide, by decide⟩,
   readiness_flag.2.2.2.1
      (pollStep false (some "role:master\r\n".toList)) [some "role:slave\r\n".toList]
      (by decide)⟩

/-! ## Counter keys and the stats report -/

/-- C7 fails as stated: after the two feed lines, with write-command set
`set` and the destination ready, the counter table has no entry `set`, the
stats round reports no field `set`, and a forwarded `SET` followed by a
forwarded `set` leaves two counters at 1 instead of one counter at 2. -/
theorem counters_not_lowercased :
    (∀ caseTable, ∃ st, pipeline caseTable ["set".toList] (fun _ => true)
          [(true, ReadResult.mk "+OK\r\n".toList false),
           (true, ReadResult.mk
              "1700000000.000000 [0 127.0.0.1:1234] \"SET\" \"foo\" \"bar\"\r\n".toList
              false)] = some st
        ∧ counterGet st.counters "set".toList = none
        ∧ counterGet (statsTick 0 st.counters).fields "set".toList = none)
      ∧ (∀ caseTable, ∃ st, workerLoop caseTable ["set".toList] (fun _ => true) workerInit
          ["m \"SET\" \"foo\" \"bar\"".toList, "m \"set\" \"foo\" \"baz\"".toList] = some st
        ∧ counterGet st.counters "SET".toList = some 1
        ∧ counterGet st.counters "set".toList = some 1) := by
  refine ⟨fun caseTable => ⟨WorkerState.mk
      [DestCall.mk ["SET".toList, "foo".toList, "bar".toList] true]
      [("SET".toList, 1)], rfl, by decide, by decide⟩,
    fun caseTable => ⟨WorkerState.mk
      [DestCall.mk ["SET".toList, "foo".toList, "bar".toList] true,
       DestCall.mk ["set".toList, "foo".toList, "baz".toList] true]
      [("SET".toList, 1), ("set".toList, 1)], rfl, by decide, by decide⟩⟩

/-- C7, as the code has it: counters are keyed by the command name as the
feed spells it (token 1 of the parse, not lower-cased).  After the feed lines
`+OK` and `... "SET" "foo" "bar"` with write-command set `set` and the
destination ready, one call `SET foo bar` has been issued, the counter table
holds `SET` = 1, and the next stats round reports the fields `SET` = 1 and
`overall` = 1 and resets the counter.  In general a forwarded command adds to
the counter keyed by its token 1 and leaves every counter under another
spelling as it was. -/
theorem counters_keyed_by_token (caseTable : Char → Char) (writeCommands : List Str)
    (dstDo : List Str → Bool) (st : WorkerState) (cmd name : Str)
    (hname : (parseCommand cmd)[1]? = some name)
    (hw : isWriteCommand caseTable writeCommands name = true) :
    pipeline caseTable ["set".toList] dstDo
        [(true, ReadResult.mk "+OK\r\n".toList false),
         (true, ReadResult.mk
            "1700000000.000000 [0 127.0.0.1:1234] \"SET\" \"foo\" \"bar\"\r\n".toList
            false)]
        = some (WorkerState.mk
            [DestCall.mk ["SET".toList, "foo".toList, "bar".toList]
              (dstDo ["SET".toList, "foo".toList, "bar".toList])]
            [("SET".toList, 1)])
      ∧ statsTick 0 [("SET".toList, 1)]
        = StatsRound.mk [("SET".toList, 1), ("overall".toList, 1)] 1 1 [("SET".toList, 0)]
      ∧ workerStep caseTable writeCommands dstDo st cmd
        = some (WorkerState.mk
            (st.calls ++ [DestCall.mk ((parseCommand cmd).drop 1)
              (dstDo ((parseCommand cmd).drop 1))])
            (counterIncr st.counters name))
      ∧ ∀ other, other ≠ name →
          counterGet (counterIncr st.counters name) other = counterGet st.counters other := by
  refine ⟨?_, by decide, ?_, ?_⟩
  · rfl
  · have h1 : 1 < (parseCommand cmd).length := by
      by_contra hlt
      rw [List.getElem?_eq_none (by omega)] at hname
      exact absurd hname (by simp)
    simp only [workerStep, h1, if_true, hname, hw]
  · intro other ho
    exact counterGet_counterIncr_other _ _ _ ho

theorem counters_keyed_by_token_witness :
    workerStep latin1Lower ["set".toList] (fun _ => true)
        (WorkerState.mk [] [("set".toList, 4)]) "m \"SET\" \"foo\" \"bar\"".toList
        = some (WorkerState.mk
            [DestCall.mk ["SET".toList, "foo".toList, "bar".toList] true]
            (counterIncr [("set".toList, 4)] "SET".toList))
      ∧ counterGet (counterIncr [("set".toList, 4)] "SET".toList) "set".toList = some 4 := by
  have h := counters_keyed_by_token latin1Lower ["set".toList] (fun _ => true)
    (WorkerState.mk [] [("set".toList, 4)]) "m \"SET\" \"foo\" \"bar\"".toList "SET".toList
    (by decide) (by decide)
  exact ⟨h.2.2.1, h.2.2.2 "set".toList (by decide)⟩

end RedisMigrate
